import Mathlib

/-!
# Verification of the oxidiff patch pipeline

Shallow embedding of `src/main.rs` of the `oxidiff` repository: a binary patch tool
that chunks a file into synthetic "instructions", normalizes away absolute offsets,
diffs two chunk sequences positionally, stores digest + change records + offset
deltas in a little-endian container, and applies the offset deltas as in-place
32-bit additive corrections after a SHA-256 verification gate.

Files are modelled as `List Nat` of byte values; Rust strings as Lean `String`
(change-record byte content as `List Nat`); `i64`/`i32` arithmetic as `Int`/`Nat`
with explicit reduction modulo `2 ^ 64` / `2 ^ 32` where the machine width matters.
-/

set_option maxRecDepth 10000

namespace Oxidiff

/-- Size of the buffer used for file operations (1 MB), `BUFFER_SIZE` in `main.rs`. -/
def BUFFER_SIZE : Nat := 1024 * 1024

/-- Uppercase hexadecimal digit character for a value below 16 (the digits Rust `{:X}` prints). -/
def hexDigitChar (d : Nat) : Char :=
  if d < 10 then Char.ofNat (48 + d) else Char.ofNat (55 + d)

/-- The sixteen characters uppercase-hex rendering can produce. -/
def hexDigits : List Char :=
  ['0', '1', '2', '3', '4', '5', '6', '7', '8', '9', 'A', 'B', 'C', 'D', 'E', 'F']

/-- Accumulator loop producing the uppercase hexadecimal digits of `n`, most significant
first.  Fuel-structured so the kernel can evaluate it; `fuel ≥ n` always suffices. -/
def natHexAux : Nat → Nat → List Char → List Char
  | 0, _, acc => acc
  | fuel + 1, n, acc =>
    if n = 0 then acc else natHexAux fuel (n / 16) (hexDigitChar (n % 16) :: acc)

/-- Uppercase hexadecimal digits of `n` (`['0']` for zero): what Rust `{:X}` prints for it. -/
def natHex (n : Nat) : List Char :=
  if n = 0 then ['0'] else natHexAux n n []

/-- Left-pad a digit list with `'0'` to width `w` (the `0w` part of a Rust format spec). -/
def padZeros (w : Nat) (ds : List Char) : List Char :=
  List.replicate (w - ds.length) '0' ++ ds

/-- Rust `format!` with spec `{:0wX}` applied to an `i64` value `a`: the two's-complement
bit pattern (`a` mod `2 ^ 64`) printed as uppercase hex, zero-padded to width `w`. -/
def rustHexPad (w : Nat) (a : Int) : List Char :=
  padZeros w (natHex ((a.emod (2 ^ 64)).toNat))

/-- The `Instruction` struct of `main.rs`. -/
structure Instruction where
  op_code : String
  address : Int
  operands : String
deriving DecidableEq, Repr

instance : Inhabited Instruction := ⟨⟨"", 0, ""⟩⟩

/-- `Instruction::new`. -/
def Instruction.new (op_code : String) (address : Int) (operands : String) : Instruction :=
  ⟨op_code, address, operands⟩

/-- `Instruction::to_string`, i.e. `format!` with spec `{} {:08X} {}` applied to the fields. -/
def Instruction.to_string (i : Instruction) : String :=
  i.op_code ++ " " ++ String.mk (rustHexPad 8 i.address) ++ " " ++ i.operands

/-- Rust `slice::chunks(4)`: consecutive groups of four, the final group possibly shorter. -/
def chunks4 {α : Type} : List α → List (List α)
  | [] => []
  | [a] => [[a]]
  | [a, b] => [[a, b]]
  | [a, b, c] => [[a, b, c]]
  | a :: b :: c :: d :: rest => [a, b, c, d] :: chunks4 rest

/-- The group lengths `chunks(4)` yields for a stream of `n` bytes. -/
def chunkLens : Nat → List Nat
  | 0 => []
  | 1 => [1]
  | 2 => [2]
  | 3 => [3]
  | n + 4 => 4 :: chunkLens n

/-- The synthetic unit `streaming_disassemble` builds at a given running address:
`op_code` and `operands` are derived from the address alone, never from byte content. -/
def mkUnit (address : Int) : Instruction :=
  Instruction.new ("OP" ++ String.mk (rustHexPad 2 address)) address
    ("OPERAND" ++ String.mk (rustHexPad 2 address))

/-- Inner loop of `streaming_disassemble`: one `Instruction` per chunk, threading the running
address (incremented by each chunk's byte length); also returns the final address. -/
def disasmChunks (cs : List (List Nat)) (address : Int) : List Instruction × Int :=
  match cs with
  | [] => ([], address)
  | c :: rest =>
    let p := disasmChunks rest (address + c.length)
    (mkUnit address :: p.1, p.2)

/-- Outer read loop of `streaming_disassemble`: each iteration consumes up to `BUFFER_SIZE`
bytes (a `BufReader` over a file delivers `min BUFFER_SIZE remaining` bytes per `read`)
and chunks them by four.  Fuel-structured; each iteration consumes at least one byte, so
`fuel ≥ data.length` suffices. -/
def disassembleLoop : Nat → List Nat → Int → List Instruction
  | 0, _, _ => []
  | fuel + 1, data, address =>
    if data = [] then []
    else
      let bytesRead := min BUFFER_SIZE data.length
      let p := disasmChunks (chunks4 (data.take bytesRead)) address
      p.1 ++ disassembleLoop fuel (data.drop bytesRead) p.2

/-- `streaming_disassemble` on a whole input stream, starting at address `0`. -/
def streaming_disassemble (data : List Nat) : List Instruction :=
  disassembleLoop data.length data 0

/-- Fuel-structured scan behind `replaceAllChars`: at each position, if the (nonempty)
pattern matches, emit the replacement and skip the pattern, else keep one character and
move on.  Each step consumes at least one character, so `fuel ≥ s.length` suffices. -/
def replaceAllFuel (pat rep : List Char) : Nat → List Char → List Char
  | 0, s => s
  | _ + 1, [] => []
  | fuel + 1, c :: cs =>
    if pat ≠ [] ∧ pat.isPrefixOf (c :: cs) then
      rep ++ replaceAllFuel pat rep fuel ((c :: cs).drop pat.length)
    else
      c :: replaceAllFuel pat rep fuel cs

/-- Embedding of Rust `str::replace`: replace every non-overlapping occurrence of `pat`,
scanning left to right.  (Every call site passes an 8-character pattern, never empty.) -/
def replaceAllChars (pat rep s : List Char) : List Char :=
  replaceAllFuel pat rep s.length s

/-- Rust `String::replace` lifted to our strings. -/
def rustReplace (s pat rep : String) : String :=
  String.mk (replaceAllChars pat.data rep.data s.data)

/-- Modelled from the spec: §4.2 says normalization substitutes only the FIRST occurrence
of the offset pattern.  This replaces the first occurrence of `pat` (if any) with `rep`,
for comparison against the source's replace-all behaviour. -/
def replaceFirstChars (pat rep : List Char) : List Char → List Char
  | [] => []
  | c :: cs =>
    if pat ≠ [] ∧ pat.isPrefixOf (c :: cs) then rep ++ (c :: cs).drop pat.length
    else c :: replaceFirstChars pat rep cs

/-- Modelled from the spec: first-occurrence-only replacement, lifted to strings. -/
def replaceFirstSpec (s pat rep : String) : String :=
  String.mk (replaceFirstChars pat.data rep.data s.data)

/-- The per-unit body of `normalize`: address rewritten to zero, the address's 8-digit
uppercase-hex rendering replaced by `"SYMREF"` throughout the operands, label kept. -/
def normUnit (instruction : Instruction) : Instruction :=
  Instruction.new instruction.op_code 0
    (rustReplace instruction.operands (String.mk (rustHexPad 8 instruction.address)) "SYMREF")

/-- `normalize`: maps `normUnit` over the sequence, producing a new sequence. -/
def normalize (assembly_code : List Instruction) : List Instruction :=
  assembly_code.map normUnit

/-- `generate_diff`: the positional index scan of the source (`+` added, `-` removed,
`~` changed, nothing when the rendered texts agree), rendered as simultaneous recursion. -/
def generate_diff : List Instruction → List Instruction → List String
  | [], ns => ns.map (fun n => "+" ++ n.to_string)
  | os, [] => os.map (fun o => "-" ++ o.to_string)
  | o :: os, n :: ns =>
    (if o.to_string ≠ n.to_string then ["~" ++ o.to_string ++ " -> " ++ n.to_string] else [])
      ++ generate_diff os ns

/-- `extract_address_changes`: pair the sequences positionally (`zip` stops at the shorter
one) and subtract the paired raw offsets. -/
def extract_address_changes (old_disassembled new_disassembled : List Instruction) : List Int :=
  (old_disassembled.zip new_disassembled).map (fun p => p.2.address - p.1.address)

/-- The change records and offset deltas `create_streaming_diff` computes for two input
streams: the diff of the two normalized disassemblies, and the pre-normalization deltas. -/
def createRecordsDeltas (old_data new_data : List Nat) : List String × List Int :=
  (generate_diff (normalize (streaming_disassemble old_data))
      (normalize (streaming_disassemble new_data)),
   extract_address_changes (streaming_disassemble old_data) (streaming_disassemble new_data))

/-! ## Container codec -/

/-- `k` little-endian bytes of `v` (low byte first). -/
def leBytes : Nat → Nat → List Nat
  | 0, _ => []
  | k + 1, v => v % 256 :: leBytes k (v / 256)

/-- Value of a little-endian byte list. -/
def leValue (bs : List Nat) : Nat :=
  bs.foldr (fun b acc => b + 256 * acc) 0

/-- `write_u32::<LittleEndian>`. -/
def le32 (v : Nat) : List Nat := leBytes 4 v

/-- `write_i64::<LittleEndian>`: the 8-byte two's-complement bit pattern of an `i64`. -/
def le64i (d : Int) : List Nat := leBytes 8 ((d.emod (2 ^ 64)).toNat)

/-- The patch container: stored digest, change-record byte strings, offset deltas.
A Rust `String` record is represented by its UTF-8 byte content. -/
structure PatchContainer where
  digest : List Nat
  change_records : List (List Nat)
  offset_deltas : List Int
deriving DecidableEq, Repr

/-- Record section written by `create_streaming_diff`: per record a `u32` byte length
(`d.len() as u32`, truncating) followed by the record's bytes. -/
def serializeRecords : List (List Nat) → List Nat
  | [] => []
  | r :: rs => le32 (r.length % 2 ^ 32) ++ r ++ serializeRecords rs

/-- Delta section written by `create_streaming_diff`: one `i64` per entry. -/
def serializeDeltas : List Int → List Nat
  | [] => []
  | d :: ds => le64i d ++ serializeDeltas ds

/-- The byte stream `create_streaming_diff` writes for a container: digest, `u32` record
count (`diff.len() as u32`, truncating), records, `u32` delta count (likewise truncating),
deltas — all integers little-endian. -/
def serializeContainer (c : PatchContainer) : List Nat :=
  c.digest ++ le32 (c.change_records.length % 2 ^ 32) ++ serializeRecords c.change_records
    ++ le32 (c.offset_deltas.length % 2 ^ 32) ++ serializeDeltas c.offset_deltas

/-- `Read::read_exact` on an in-memory stream: `n` bytes, or the end-of-file error. -/
def readBytesE (n : Nat) (s : List Nat) : Except String (List Nat × List Nat) :=
  if n ≤ s.length then .ok (s.take n, s.drop n) else .error "failed to fill whole buffer"

/-- `read_u32::<LittleEndian>`. -/
def readU32E (s : List Nat) : Except String (Nat × List Nat) :=
  match readBytesE 4 s with
  | .error e => .error e
  | .ok (bs, rest) => .ok (leValue bs, rest)

/-- `read_i64::<LittleEndian>`: decode the 8-byte two's-complement pattern to its value. -/
def readI64E (s : List Nat) : Except String (Int × List Nat) :=
  match readBytesE 8 s with
  | .error e => .error e
  | .ok (bs, rest) =>
    let n := leValue bs
    .ok (if n < 2 ^ 63 then (n : Int) else (n : Int) - 2 ^ 64, rest)

/-- UTF-8 continuation byte. -/
def isCont (b : Nat) : Bool := decide (128 ≤ b ∧ b ≤ 191)

/-- UTF-8 validity of a byte list: the check `String::from_utf8` performs (shortest-form
encodings only, no surrogates, maximum scalar value `0x10FFFF`). -/
def utf8Valid : List Nat → Bool
  | [] => true
  | b :: bs =>
    if b ≤ 127 then utf8Valid bs
    else
      match bs with
      | [] => false
      | b1 :: bs1 =>
        if 194 ≤ b ∧ b ≤ 223 then isCont b1 && utf8Valid bs1
        else
          match bs1 with
          | [] => false
          | b2 :: bs2 =>
            if 224 ≤ b ∧ b ≤ 239 then
              (if b = 224 then decide (160 ≤ b1 ∧ b1 ≤ 191)
               else if b = 237 then decide (128 ≤ b1 ∧ b1 ≤ 159)
               else isCont b1) && isCont b2 && utf8Valid bs2
            else
              match bs2 with
              | [] => false
              | b3 :: bs3 =>
                if 240 ≤ b ∧ b ≤ 244 then
                  (if b = 240 then decide (144 ≤ b1 ∧ b1 ≤ 191)
                   else if b = 244 then decide (128 ≤ b1 ∧ b1 ≤ 143)
                   else isCont b1) && isCont b2 && isCont b3 && utf8Valid bs3
                else false

/-- Record-reading loop of `apply_streaming_patch`: `count` records, each a `u32` length
followed by that many bytes, which `String::from_utf8` requires to be valid UTF-8. -/
def parseRecords : Nat → List Nat → Except String (List (List Nat) × List Nat)
  | 0, s => .ok ([], s)
  | n + 1, s =>
    match readU32E s with
    | .error e => .error e
    | .ok (len, s1) =>
      match readBytesE len s1 with
      | .error e => .error e
      | .ok (bs, s2) =>
        if utf8Valid bs then
          match parseRecords n s2 with
          | .error e => .error e
          | .ok (rs, s3) => .ok (bs :: rs, s3)
        else .error "invalid utf-8 sequence"

/-- Delta-reading loop of `apply_streaming_patch`: `count` little-endian `i64` values. -/
def parseDeltas : Nat → List Nat → Except String (List Int × List Nat)
  | 0, s => .ok ([], s)
  | n + 1, s =>
    match readI64E s with
    | .error e => .error e
    | .ok (d, s1) =>
      match parseDeltas n s1 with
      | .error e => .error e
      | .ok (ds, s2) => .ok (d :: ds, s2)

/-- The record and delta sections of a patch (everything after the stored digest),
in the exact read order of `apply_streaming_patch`. -/
def parseBody (s : List Nat) : Except String ((List (List Nat) × List Int) × List Nat) :=
  match readU32E s with
  | .error e => .error e
  | .ok (diffCount, s1) =>
    match parseRecords diffCount s1 with
    | .error e => .error e
    | .ok (records, s2) =>
      match readU32E s2 with
      | .error e => .error e
      | .ok (changeCount, s3) =>
        match parseDeltas changeCount s3 with
        | .error e => .error e
        | .ok (deltas, s4) => .ok ((records, deltas), s4)

/-- Parsing a container from a byte stream: the read sequence of `apply_streaming_patch`
(stored digest, records, deltas); trailing bytes are returned unread, not rejected. -/
def parseContainer (s : List Nat) : Except String (PatchContainer × List Nat) :=
  match readBytesE 32 s with
  | .error e => .error e
  | .ok (digest, rest) =>
    match parseBody rest with
    | .error e => .error e
    | .ok ((records, deltas), s4) => .ok (⟨digest, records, deltas⟩, s4)

/-! ## SHA-256 (the digest `calculate_file_hash` computes with the `sha2` crate)

All 32-bit words are `Nat` values kept below `2 ^ 32` by explicit reduction. -/

/-- The 64 SHA-256 round constants of FIPS 180-4, written in decimal. -/
def sha256K : List Nat :=
  [1116352408, 1899447441, 3049323471, 3921009573, 961987163,
   1508970993, 2453635748, 2870763221, 3624381080, 310598401,
   607225278, 1426881987, 1925078388, 2162078206, 2614888103,
   3248222580, 3835390401, 4022224774, 264347078, 604807628,
   770255983, 1249150122, 1555081692, 1996064986, 2554220882,
   2821834349, 2952996808, 3210313671, 3336571891, 3584528711,
   113926993, 338241895, 666307205, 773529912, 1294757372,
   1396182291, 1695183700, 1986661051, 2177026350, 2456956037,
   2730485921, 2820302411, 3259730800, 3345764771, 3516065817,
   3600352804, 4094571909, 275423344, 430227734, 506948616,
   659060556, 883997877, 958139571, 1322822218, 1537002063,
   1747873779, 1955562222, 2024104815, 2227730452, 2361852424,
   2428436474, 2756734187, 3204031479, 3329325298]

/-- SHA-256 initial hash state (FIPS 180-4), written in decimal. -/
def sha256H0 : List Nat :=
  [1779033703, 3144134277, 1013904242, 2773480762, 1359893119,
   2600822924, 528734635, 1541459225]

/-- Right rotation of a 32-bit word. -/
def rotr32 (n w : Nat) : Nat := w / 2 ^ n + w % 2 ^ n * 2 ^ (32 - n)

/-- Three-way XOR. -/
def xor3 (a b c : Nat) : Nat := Nat.xor (Nat.xor a b) c

/-- Message-schedule sigma functions. -/
def smallSigma0 (w : Nat) : Nat := xor3 (rotr32 7 w) (rotr32 18 w) (w / 2 ^ 3)

def smallSigma1 (w : Nat) : Nat := xor3 (rotr32 17 w) (rotr32 19 w) (w / 2 ^ 10)

/-- Compression sigma functions. -/
def bigSigma0 (w : Nat) : Nat := xor3 (rotr32 2 w) (rotr32 13 w) (rotr32 22 w)

def bigSigma1 (w : Nat) : Nat := xor3 (rotr32 6 w) (rotr32 11 w) (rotr32 25 w)

/-- SHA-256 choose function (`¬x` taken within 32 bits). -/
def chFn (x y z : Nat) : Nat := Nat.xor (Nat.land x y) (Nat.land (2 ^ 32 - 1 - x % 2 ^ 32) z)

/-- SHA-256 majority function. -/
def majFn (x y z : Nat) : Nat := xor3 (Nat.land x y) (Nat.land x z) (Nat.land y z)

/-- Big-endian 32-bit words of a byte list (four bytes each; a short tail is dropped —
blocks always have 64 bytes, so none is). -/
def beWords : List Nat → List Nat
  | b0 :: b1 :: b2 :: b3 :: rest => (((b0 * 256 + b1) * 256 + b2) * 256 + b3) :: beWords rest
  | _ => []

/-- Big-endian bytes of a 32-bit word. -/
def be32 (w : Nat) : List Nat := [w / 2 ^ 24 % 256, w / 2 ^ 16 % 256, w / 2 ^ 8 % 256, w % 256]

/-- Big-endian bytes of a 64-bit value. -/
def be64 (v : Nat) : List Nat :=
  [v / 2 ^ 56 % 256, v / 2 ^ 48 % 256, v / 2 ^ 40 % 256, v / 2 ^ 32 % 256,
   v / 2 ^ 24 % 256, v / 2 ^ 16 % 256, v / 2 ^ 8 % 256, v % 256]

/-- SHA-256 padding: `0x80`, zeros to 56 mod 64, then the bit length, big-endian 64-bit. -/
def sha256Pad (m : List Nat) : List Nat :=
  m ++ 128 :: (List.replicate ((119 - m.length % 64) % 64) 0 ++ be64 (8 * m.length % 2 ^ 64))

/-- Next message-schedule word from the words so far. -/
def msgScheduleStep (ws : List Nat) : Nat :=
  (smallSigma1 (ws.getD (ws.length - 2) 0) + ws.getD (ws.length - 7) 0
    + smallSigma0 (ws.getD (ws.length - 15) 0) + ws.getD (ws.length - 16) 0) % 2 ^ 32

/-- Extend the 16 block words to the 64-entry message schedule. -/
def msgSchedule (w16 : List Nat) : List Nat :=
  (List.range 48).foldl (fun ws _ => ws ++ [msgScheduleStep ws]) w16

/-- The eight 32-bit working variables of the compression loop. -/
structure Sha256State where
  a : Nat
  b : Nat
  c : Nat
  d : Nat
  e : Nat
  f : Nat
  g : Nat
  h : Nat

/-- One round of the SHA-256 compression loop. -/
def sha256Round (st : Sha256State) (kw : Nat × Nat) : Sha256State :=
  let t1 := (st.h + bigSigma1 st.e + chFn st.e st.f st.g + kw.1 + kw.2) % 2 ^ 32
  let t2 := (bigSigma0 st.a + majFn st.a st.b st.c) % 2 ^ 32
  ⟨(t1 + t2) % 2 ^ 32, st.a, st.b, st.c, (st.d + t1) % 2 ^ 32, st.e, st.f, st.g⟩

/-- Compress one 64-byte block into the running hash state. -/
def sha256Compress (hs : List Nat) (block : List Nat) : List Nat :=
  let w := msgSchedule (beWords block)
  let st0 : Sha256State :=
    ⟨hs.getD 0 0, hs.getD 1 0, hs.getD 2 0, hs.getD 3 0, hs.getD 4 0, hs.getD 5 0,
     hs.getD 6 0, hs.getD 7 0⟩
  let st := (sha256K.zip w).foldl sha256Round st0
  [(hs.getD 0 0 + st.a) % 2 ^ 32, (hs.getD 1 0 + st.b) % 2 ^ 32,
   (hs.getD 2 0 + st.c) % 2 ^ 32, (hs.getD 3 0 + st.d) % 2 ^ 32,
   (hs.getD 4 0 + st.e) % 2 ^ 32, (hs.getD 5 0 + st.f) % 2 ^ 32,
   (hs.getD 6 0 + st.g) % 2 ^ 32, (hs.getD 7 0 + st.h) % 2 ^ 32]

/-- Fuel-structured 64-byte chunking; `fuel ≥ l.length` suffices. -/
def chunks64Fuel : Nat → List Nat → List (List Nat)
  | 0, _ => []
  | _ + 1, [] => []
  | fuel + 1, b :: bs => (b :: bs.take 63) :: chunks64Fuel fuel (bs.drop 63)

/-- 64-byte blocks of a padded message. -/
def chunks64 (l : List Nat) : List (List Nat) :=
  chunks64Fuel l.length l

/-- SHA-256 digest (32 bytes) of a byte list.  `calculate_file_hash` feeds the stream to
the hasher in buffer-sized blocks, which digests exactly the concatenated stream. -/
def sha256Bytes (m : List Nat) : List Nat :=
  (((chunks64 (sha256Pad m)).foldl sha256Compress sha256H0).map be32).flatten

/-! ## Patch application -/

/-- In-place overwrite of `bytes` at byte position `pos` (a seek followed by a write on an
open file; every call here stays within the file, so the length never changes). -/
def writeBytesAt (file : List Nat) (pos : Nat) (bytes : List Nat) : List Nat :=
  file.take pos ++ bytes ++ file.drop (pos + bytes.length)

/-- The patch loop of `apply_streaming_patch`: for the `i`-th delta, read the 32-bit
little-endian field at byte `4*i`, add the delta narrowed to 32 bits (two's-complement
wrap-around, i.e. mod `2 ^ 32` on bit patterns — release-profile Rust semantics for the
overflowing `+=`), and write the sum back at the same position.  A read past end of file
is the `read_exact` end-of-file error, returned with the file as mutated so far. -/
def applyDeltas (file : List Nat) (deltas : List Int) (i : Nat) : Except String Unit × List Nat :=
  match deltas with
  | [] => (.ok (), file)
  | d :: ds =>
    if 4 * i + 4 ≤ file.length then
      let v := leValue ((file.drop (4 * i)).take 4)
      let v2 := (v + (d.emod (2 ^ 32)).toNat) % 2 ^ 32
      applyDeltas (writeBytesAt file (4 * i) (le32 v2)) ds (i + 1)
    else (.error "failed to fill whole buffer", file)

/-- The four bytes of `file` starting at byte position `pos` (the field one `read_i32` at
`pos` sees). -/
def sliceAt (file : List Nat) (pos : Nat) : List Nat :=
  (file.drop pos).take 4

/-- `apply_streaming_patch` on in-memory contents: read the stored digest, compare it with
the SHA-256 digest of the target's current content (mismatch is the `InvalidData`
verification error, before any mutation), then read records and deltas, then run the
patch loop.  Returns the outcome together with the target's final contents. -/
def apply_streaming_patch (target patch : List Nat) : Except String Unit × List Nat :=
  match readBytesE 32 patch with
  | .error e => (.error e, target)
  | .ok (file_hash, rest) =>
    if file_hash = sha256Bytes target then
      match parseBody rest with
      | .error e => (.error e, target)
      | .ok ((_records, deltas), _) => applyDeltas target deltas 0
    else (.error "File hash mismatch", target)

/-! ## Basic lemmas about the chunker -/

theorem disasmChunks_append (cs cs2 : List (List Nat)) (a : Int) :
    disasmChunks (cs ++ cs2) a =
      ((disasmChunks cs a).1 ++ (disasmChunks cs2 (disasmChunks cs a).2).1,
        (disasmChunks cs2 (disasmChunks cs a).2).2) := by
  induction cs generalizing a with
  | nil => simp [disasmChunks]
  | cons c rest ih => simp [disasmChunks, ih]

theorem chunks4_append {α : Type} (l1 l2 : List α) (h : 4 ∣ l1.length) :
    chunks4 (l1 ++ l2) = chunks4 l1 ++ chunks4 l2 := by
  induction l1 using chunks4.induct with
  | case1 => simp [chunks4]
  | case2 a => simp only [List.length_cons, List.length_nil] at h; omega
  | case3 a b => simp only [List.length_cons, List.length_nil] at h; omega
  | case4 a b c => simp only [List.length_cons, List.length_nil] at h; omega
  | case5 a b c d rest ih =>
    have hd : 4 ∣ rest.length := by
      simp only [List.length_cons] at h
      omega
    simp only [List.cons_append, chunks4, List.append_eq, ih hd]

theorem disasmChunks_chunks4_snd (l : List Nat) (a : Int) :
    (disasmChunks (chunks4 l) a).2 = a + l.length := by
  induction l using chunks4.induct generalizing a with
  | case1 => simp [chunks4, disasmChunks]
  | case2 x => simp [chunks4, disasmChunks]
  | case3 x y => simp [chunks4, disasmChunks]
  | case4 x y z => simp [chunks4, disasmChunks]
  | case5 x y z w rest ih =>
    simp only [chunks4, disasmChunks, ih, List.length_cons, List.length_nil]
    push_cast
    ring

theorem disasmChunks_chunks4_length (l : List Nat) (a : Int) :
    (disasmChunks (chunks4 l) a).1.length = (l.length + 3) / 4 := by
  induction l using chunks4.induct generalizing a with
  | case1 => simp [chunks4, disasmChunks]
  | case2 x => simp [chunks4, disasmChunks]
  | case3 x y => simp [chunks4, disasmChunks]
  | case4 x y z => simp [chunks4, disasmChunks]
  | case5 x y z w rest ih =>
    simp only [chunks4, disasmChunks, List.length_cons, List.length_nil, ih]
    omega

theorem disasmChunks_chunks4_address (l : List Nat) (a : Int) (i : Nat)
    (hi : i < (disasmChunks (chunks4 l) a).1.length) :
    ((disasmChunks (chunks4 l) a).1.getD i default).address = a + 4 * i := by
  induction l using chunks4.induct generalizing a i with
  | case1 => simp [chunks4, disasmChunks] at hi
  | case2 x =>
    cases i with
    | zero => simp [chunks4, disasmChunks, mkUnit, Instruction.new]
    | succ j => simp [chunks4, disasmChunks] at hi
  | case3 x y =>
    cases i with
    | zero => simp [chunks4, disasmChunks, mkUnit, Instruction.new]
    | succ j => simp [chunks4, disasmChunks] at hi
  | case4 x y z =>
    cases i with
    | zero => simp [chunks4, disasmChunks, mkUnit, Instruction.new]
    | succ j => simp [chunks4, disasmChunks] at hi
  | case5 x y z w rest ih =>
    cases i with
    | zero => simp [chunks4, disasmChunks, mkUnit, Instruction.new]
    | succ j =>
      simp only [chunks4, disasmChunks, List.length_cons, List.length_nil] at hi ⊢
      rw [List.getD_cons_succ]
      rw [ih _ _ (by omega)]
      push_cast
      ring

theorem disassembleLoop_nil (fuel : Nat) (a : Int) : disassembleLoop fuel [] a = [] := by
  cases fuel <;> simp [disassembleLoop]

theorem disassembleLoop_eq (fuel : Nat) (s : List Nat) (a : Int) (hf : s.length ≤ fuel) :
    disassembleLoop fuel s a = (disasmChunks (chunks4 s) a).1 := by
  induction fuel generalizing s a with
  | zero =>
    have hnil : s = [] := List.eq_nil_of_length_eq_zero (by omega)
    subst hnil
    simp [disassembleLoop, chunks4, disasmChunks]
  | succ fuel ih =>
    by_cases hs : s = []
    · subst hs
      simp [disassembleLoop, chunks4, disasmChunks]
    · have hpos : 0 < s.length := List.length_pos.mpr hs
      simp only [disassembleLoop, if_neg hs]
      by_cases hb : s.length ≤ BUFFER_SIZE
      · have hmin : min BUFFER_SIZE s.length = s.length := by omega
        simp only [hmin, List.take_length, List.drop_length, disassembleLoop_nil,
          List.append_nil]
      · have hmin : min BUFFER_SIZE s.length = BUFFER_SIZE := by omega
        have htlen : (s.take BUFFER_SIZE).length = BUFFER_SIZE := by
          simp only [List.length_take]
          omega
        have hdlen : (s.drop BUFFER_SIZE).length ≤ fuel := by
          simp only [List.length_drop]
          have hb0 : 0 < BUFFER_SIZE := by norm_num [BUFFER_SIZE]
          omega
        rw [hmin, ih _ _ hdlen]
        conv_rhs => rw [show s = s.take BUFFER_SIZE ++ s.drop BUFFER_SIZE by simp]
        rw [chunks4_append _ _ (by rw [htlen]; norm_num [BUFFER_SIZE])]
        rw [disasmChunks_append]

theorem streaming_disassemble_eq (s : List Nat) :
    streaming_disassemble s = (disasmChunks (chunks4 s) 0).1 :=
  disassembleLoop_eq s.length s 0 le_rfl

/-! ## C6: chunking coverage -/

/-- C6: for an input stream of `L` bytes, `streaming_disassemble` produces exactly
`ceil(L/4)` units, the `i`-th carrying offset `4*i` — the units tile the stream
contiguously in 4-byte groups, the final group possibly shorter. -/
theorem C6_chunking_coverage (data : List Nat) :
    (streaming_disassemble data).length = (data.length + 3) / 4 ∧
    ∀ i, i < (streaming_disassemble data).length →
      ((streaming_disassemble data).getD i default).address = 4 * i := by
  rw [streaming_disassemble_eq]
  refine ⟨disasmChunks_chunks4_length data 0, fun i hi => ?_⟩
  rw [disasmChunks_chunks4_address data 0 i hi]
  omega

/-- C6 witness: a 5-byte stream yields `ceil(5/4) = 2` units, the second at offset 4. -/
theorem C6_witness :
    (streaming_disassemble [1, 2, 3, 4, 5]).length = (5 + 3) / 4 ∧
    (1 < (streaming_disassemble [1, 2, 3, 4, 5]).length ∧
      ((streaming_disassemble [1, 2, 3, 4, 5]).getD 1 default).address = 4 * 1) :=
  ⟨(C6_chunking_coverage [1, 2, 3, 4, 5]).1,
    by decide,
    (C6_chunking_coverage [1, 2, 3, 4, 5]).2 1 (by decide)⟩

/-! ## C5: content independence -/

theorem disasmChunks_congr (cs cs2 : List (List Nat)) (a : Int)
    (h : cs.map List.length = cs2.map List.length) : disasmChunks cs a = disasmChunks cs2 a := by
  induction cs generalizing cs2 a with
  | nil =>
    cases cs2 with
    | nil => rfl
    | cons c cs2 => simp at h
  | cons c rest ih =>
    cases cs2 with
    | nil => simp at h
    | cons c2 rest2 =>
      simp only [List.map_cons, List.cons.injEq] at h
      simp only [disasmChunks, h.1]
      rw [ih rest2 _ h.2]

theorem chunks4_lengths {α : Type} (s : List α) :
    (chunks4 s).map List.length = chunkLens s.length := by
  induction s using chunks4.induct with
  | case1 => rfl
  | case2 a => rfl
  | case3 a b => rfl
  | case4 a b c => rfl
  | case5 a b c d rest ih =>
    have hl : (a :: b :: c :: d :: rest).length = rest.length + 4 := by
      simp only [List.length_cons]
    rw [hl]
    simp only [chunks4, List.map_cons, ih, chunkLens]
    simp

theorem chunks4_lengths_congr {α β : Type} (s : List α) (t : List β) (h : s.length = t.length) :
    (chunks4 s).map List.length = (chunks4 t).map List.length := by
  rw [chunks4_lengths, chunks4_lengths, h]

theorem streaming_disassemble_congr (s t : List Nat) (h : s.length = t.length) :
    streaming_disassemble s = streaming_disassemble t := by
  rw [streaming_disassemble_eq, streaming_disassemble_eq]
  rw [disasmChunks_congr (chunks4 s) (chunks4 t) 0 (chunks4_lengths_congr s t h)]

theorem generate_diff_self (l : List Instruction) : generate_diff l l = [] := by
  induction l with
  | nil => rfl
  | cons o os ih =>
    simp only [generate_diff, ih, List.append_nil]
    simp

/-- C5: unit label and payload are derived solely from the offset, so two equal-length
streams disassemble to identical unit sequences whatever their bytes, and the diff of
their normalizations is empty — change records never reflect byte-content differences
between equal-length files. -/
theorem C5_content_blind (s t : List Nat) (h : s.length = t.length) :
    streaming_disassemble s = streaming_disassemble t ∧
    generate_diff (normalize (streaming_disassemble s)) (normalize (streaming_disassemble t)) = [] := by
  have hd := streaming_disassemble_congr s t h
  exact ⟨hd, by rw [hd]; exact generate_diff_self _⟩

/-- C5 witness: two 4-byte streams with entirely different contents. -/
theorem C5_witness :
    ([0, 0, 0, 0] : List Nat).length = ([9, 9, 9, 9] : List Nat).length ∧
    (streaming_disassemble [0, 0, 0, 0] = streaming_disassemble [9, 9, 9, 9] ∧
      generate_diff (normalize (streaming_disassemble [0, 0, 0, 0]))
        (normalize (streaming_disassemble [9, 9, 9, 9])) = []) :=
  ⟨rfl, C5_content_blind [0, 0, 0, 0] [9, 9, 9, 9] rfl⟩

/-! ## C1: the end-to-end creation scenario -/

/-- C1 counterexample: on old bytes `[0,1,2,3,4,5,6,7]` and new bytes
`[0,1,2,3,FF,FF,FF,FF]` the pipeline's change-record list is empty — in particular no
record beginning with `'~'` marks unit index 1 as changed, contrary to the claim. -/
theorem C1_counterexample :
    (createRecordsDeltas [0, 1, 2, 3, 4, 5, 6, 7] [0, 1, 2, 3, 255, 255, 255, 255]).1 = [] ∧
    ¬ ∃ r ∈ (createRecordsDeltas [0, 1, 2, 3, 4, 5, 6, 7] [0, 1, 2, 3, 255, 255, 255, 255]).1,
        "~".isPrefixOf r := by
  constructor
  · decide
  · decide

/-- C1 (amended): on those inputs the pipeline produces offset deltas `[0, 0]` and an
empty change-record list (the synthetic unit text is content-independent, so the payload
difference in unit 1 is invisible to the differ). -/
theorem C1_create_scenario :
    (createRecordsDeltas [0, 1, 2, 3, 4, 5, 6, 7] [0, 1, 2, 3, 255, 255, 255, 255]).2 = [0, 0] ∧
    (createRecordsDeltas [0, 1, 2, 3, 4, 5, 6, 7] [0, 1, 2, 3, 255, 255, 255, 255]).1 = [] := by
  constructor
  · decide
  · decide

/-! ## C9: extract_address_changes -/

/-- C9: `extract_address_changes` produces exactly `min(len(old), len(new))` deltas, the
`i`-th being `new[i].offset - old[i].offset` on the raw (pre-normalization) offsets; the
`zip` never indexes past the shorter sequence. -/
theorem C9_extract_spec (old_d new_d : List Instruction) :
    (extract_address_changes old_d new_d).length = min old_d.length new_d.length ∧
    ∀ i, i < min old_d.length new_d.length →
      (extract_address_changes old_d new_d).getD i 0 =
        (new_d.getD i default).address - (old_d.getD i default).address := by
  constructor
  · simp [extract_address_changes]
  · intro i hi
    have hlen : i < (extract_address_changes old_d new_d).length := by
      simp [extract_address_changes]
      omega
    have h1 : i < old_d.length := by omega
    have h2 : i < new_d.length := by omega
    rw [List.getD_eq_getElem _ _ hlen, List.getD_eq_getElem _ _ h1, List.getD_eq_getElem _ _ h2]
    simp [extract_address_changes]

/-- C9 witness: sequences of lengths 3 and 2 pair only the first two units. -/
theorem C9_witness :
    (extract_address_changes
        [Instruction.new "a" 0 "x", Instruction.new "b" 4 "y", Instruction.new "c" 8 "z"]
        [Instruction.new "a" 2 "x", Instruction.new "b" 10 "y"]).length = min 3 2 ∧
    (1 < min 3 2 ∧
      (extract_address_changes
          [Instruction.new "a" 0 "x", Instruction.new "b" 4 "y", Instruction.new "c" 8 "z"]
          [Instruction.new "a" 2 "x", Instruction.new "b" 10 "y"]).getD 1 0 = 10 - 4) :=
  ⟨by simpa using (C9_extract_spec _ _).1,
    by decide,
    by
      have := (C9_extract_spec
        [Instruction.new "a" 0 "x", Instruction.new "b" 4 "y", Instruction.new "c" 8 "z"]
        [Instruction.new "a" 2 "x", Instruction.new "b" 10 "y"]).2 1 (by decide)
      simpa using this⟩

/-! ## C4: normalize -/

/-- C4 counterexample: `normalize` uses Rust `str::replace`, which replaces EVERY
non-overlapping occurrence of the offset pattern — not only the first.  On a unit at
offset 0 with payload `"00000000 00000000"` both occurrences become `"SYMREF"`, whereas
the claimed first-occurrence substitution would leave the second one intact. -/
theorem C4_counterexample :
    (normalize [Instruction.new "OP00" 0 "00000000 00000000"]).map Instruction.operands =
      ["SYMREF SYMREF"] ∧
    (normalize [Instruction.new "OP00" 0 "00000000 00000000"]).map Instruction.operands ≠
      [replaceFirstSpec "00000000 00000000" (String.mk (rustHexPad 8 0)) "SYMREF"] := by
  constructor
  · decide
  · decide

/-- C4 (amended): `normalize` rewrites each unit's offset to zero, substitutes every
(non-overlapping, left-to-right) occurrence of the unit's own offset formatted as 8
uppercase hex digits in the payload with the placeholder token, and leaves the label
unchanged; the output has the input's length (the embedding is pure, so the input
sequence itself is never mutated). -/
theorem C4_normalize_spec (s : List Instruction) (i : Nat) (hi : i < s.length) :
    (normalize s).length = s.length ∧
    ((normalize s).getD i default).op_code = (s.getD i default).op_code ∧
    ((normalize s).getD i default).address = 0 ∧
    ((normalize s).getD i default).operands =
      rustReplace (s.getD i default).operands
        (String.mk (rustHexPad 8 (s.getD i default).address)) "SYMREF" := by
  have hlen : (normalize s).length = s.length := by simp [normalize]
  have hmap : (normalize s).getD i default = normUnit (s.getD i default) := by
    rw [List.getD_eq_getElem _ _ (by omega), List.getD_eq_getElem _ _ hi]
    simp [normalize]
  exact ⟨hlen, by rw [hmap]; rfl, by rw [hmap]; rfl, by rw [hmap]; rfl⟩

/-- C4 witness: a concrete unit at offset 7 whose payload mentions `"00000007"`. -/
theorem C4_witness :
    0 < ([Instruction.new "OPA" 7 "OPERAND07 00000007"] : List Instruction).length ∧
    ((normalize [Instruction.new "OPA" 7 "OPERAND07 00000007"]).length =
        ([Instruction.new "OPA" 7 "OPERAND07 00000007"] : List Instruction).length ∧
      ((normalize [Instruction.new "OPA" 7 "OPERAND07 00000007"]).getD 0 default).op_code =
        (([Instruction.new "OPA" 7 "OPERAND07 00000007"] : List Instruction).getD 0 default).op_code ∧
      ((normalize [Instruction.new "OPA" 7 "OPERAND07 00000007"]).getD 0 default).address = 0 ∧
      ((normalize [Instruction.new "OPA" 7 "OPERAND07 00000007"]).getD 0 default).operands =
        rustReplace (([Instruction.new "OPA" 7 "OPERAND07 00000007"] : List Instruction).getD 0 default).operands
          (String.mk (rustHexPad 8
            (([Instruction.new "OPA" 7 "OPERAND07 00000007"] : List Instruction).getD 0 default).address))
          "SYMREF") :=
  ⟨by decide, C4_normalize_spec [Instruction.new "OPA" 7 "OPERAND07 00000007"] 0 (by decide)⟩

/-! ## Little-endian encode/decode lemmas -/

theorem leBytes_length (k v : Nat) : (leBytes k v).length = k := by
  induction k generalizing v with
  | zero => rfl
  | succ k ih => simp [leBytes, ih]

theorem mod_mul_256 (v m : Nat) (hm : 0 < m) :
    v % (256 * m) = v % 256 + 256 * (v / 256 % m) := by
  have h2 : v = 256 * m * (v / 256 / m) + (256 * (v / 256 % m) + v % 256) := by
    conv_lhs => rw [← Nat.div_add_mod v 256]
    conv_lhs => rw [← Nat.div_add_mod (v / 256) m]
    ring
  conv_lhs => rw [h2]
  rw [Nat.mul_add_mod]
  have hq : v / 256 % m < m := Nat.mod_lt _ hm
  have hr : v % 256 < 256 := Nat.mod_lt _ (by norm_num)
  rw [Nat.mod_eq_of_lt (by omega)]
  omega

theorem leValue_leBytes (k v : Nat) : leValue (leBytes k v) = v % 2 ^ (8 * k) := by
  induction k generalizing v with
  | zero => simp [leBytes, leValue, Nat.mod_one]
  | succ k ih =>
    have hpow : 256 * 2 ^ (8 * k) = 2 ^ (8 * (k + 1)) := by
      rw [show 8 * (k + 1) = 8 + 8 * k by ring, pow_add]
      norm_num
    calc leValue (leBytes (k + 1) v)
        = v % 256 + 256 * leValue (leBytes k (v / 256)) := rfl
      _ = v % 256 + 256 * (v / 256 % 2 ^ (8 * k)) := by rw [ih]
      _ = v % (256 * 2 ^ (8 * k)) := (mod_mul_256 v _ (by positivity)).symm
      _ = v % 2 ^ (8 * (k + 1)) := by rw [hpow]

theorem readBytesE_append (l rest : List Nat) : readBytesE l.length (l ++ rest) = .ok (l, rest) := by
  unfold readBytesE
  rw [if_pos (by simp)]
  rw [List.take_left, List.drop_left]

theorem readU32E_le32 (v : Nat) (hv : v < 2 ^ 32) (rest : List Nat) :
    readU32E (le32 v ++ rest) = .ok (v, rest) := by
  have h4 := readBytesE_append (leBytes 4 v) rest
  rw [leBytes_length] at h4
  unfold readU32E le32
  simp only [h4]
  rw [show leValue (leBytes 4 v) = v % 2 ^ (8 * 4) from leValue_leBytes 4 v]
  rw [Nat.mod_eq_of_lt (by norm_num at hv ⊢; omega)]

theorem readI64E_le64i (d : Int) (hlo : -(2 ^ 63) ≤ d) (hhi : d < 2 ^ 63) (rest : List Nat) :
    readI64E (le64i d ++ rest) = .ok (d, rest) := by
  have h8 := readBytesE_append (leBytes 8 ((d.emod (2 ^ 64)).toNat)) rest
  rw [leBytes_length] at h8
  unfold readI64E le64i
  simp only [h8]
  have hnn : 0 ≤ d.emod (2 ^ 64) := Int.emod_nonneg d (by norm_num)
  have hub : d.emod (2 ^ 64) < 2 ^ 64 := Int.emod_lt_of_pos d (by norm_num)
  have hcast : (((d.emod (2 ^ 64)).toNat : Nat) : Int) = d.emod (2 ^ 64) :=
    Int.toNat_of_nonneg hnn
  have hlt : (d.emod (2 ^ 64)).toNat < 2 ^ 64 := by omega
  rw [show leValue (leBytes 8 (d.emod (2 ^ 64)).toNat) =
      (d.emod (2 ^ 64)).toNat % 2 ^ (8 * 8) from leValue_leBytes 8 _]
  rw [Nat.mod_eq_of_lt (by norm_num at hlt ⊢; omega)]
  have hval : (if (d.emod (2 ^ 64)).toNat < 2 ^ 63
      then (((d.emod (2 ^ 64)).toNat : Nat) : Int)
      else (((d.emod (2 ^ 64)).toNat : Nat) : Int) - 2 ^ 64) = d := by
    by_cases hd0 : 0 ≤ d
    · have he : d.emod (2 ^ 64) = d := Int.emod_eq_of_lt hd0 (by omega)
      rw [he]
      rw [if_pos (by omega)]
      omega
    · have he : d.emod (2 ^ 64) = d + 2 ^ 64 := by
        rw [show d.emod (2 ^ 64) = (d + 2 ^ 64 * 1).emod (2 ^ 64) from
          (Int.add_mul_emod_self_left d (2 ^ 64) 1).symm]
        rw [show d + 2 ^ 64 * 1 = d + 2 ^ 64 by ring]
        exact Int.emod_eq_of_lt (by omega) (by omega)
      rw [he]
      rw [if_neg (by omega)]
      omega
  rw [hval]

/-! ## C3: container round trip -/

theorem parseRecords_serialize (rs : List (List Nat)) (tail : List Nat)
    (h : ∀ r ∈ rs, r.length < 2 ^ 32 ∧ utf8Valid r = true) :
    parseRecords rs.length (serializeRecords rs ++ tail) = .ok (rs, tail) := by
  induction rs with
  | nil => rfl
  | cons r rs ih =>
    obtain ⟨hr, hv⟩ := h r (by simp)
    have hmod : r.length % 2 ^ 32 = r.length := Nat.mod_eq_of_lt hr
    simp only [serializeRecords, List.length_cons, parseRecords, hmod, List.append_assoc]
    simp only [readU32E_le32 _ hr, readBytesE_append, hv, if_true,
      ih (fun r2 hr2 => h r2 (by simp [hr2]))]

theorem parseDeltas_serialize (ds : List Int) (tail : List Nat)
    (h : ∀ d ∈ ds, -(2 ^ 63) ≤ d ∧ d < 2 ^ 63) :
    parseDeltas ds.length (serializeDeltas ds ++ tail) = .ok (ds, tail) := by
  induction ds with
  | nil => rfl
  | cons d ds ih =>
    obtain ⟨hlo, hhi⟩ := h d (by simp)
    simp only [serializeDeltas, List.length_cons, parseDeltas, List.append_assoc]
    simp only [readI64E_le64i d hlo hhi, ih (fun d2 hd2 => h d2 (by simp [hd2]))]

/-- C3 (amended): for every container value whose record count, record byte lengths and
delta count are below `2 ^ 32` (the `u32` fields of the format — `as u32` silently
truncates larger ones), whose digest has 32 bytes, whose records are valid UTF-8 and
whose deltas fit in `i64`, parsing the serialized stream yields the container back
exactly, with no bytes left over. -/
theorem C3_roundtrip (c : PatchContainer) (hd : c.digest.length = 32)
    (hrc : c.change_records.length < 2 ^ 32)
    (hr : ∀ r ∈ c.change_records, r.length < 2 ^ 32 ∧ utf8Valid r = true)
    (hdc : c.offset_deltas.length < 2 ^ 32)
    (hds : ∀ d ∈ c.offset_deltas, -(2 ^ 63) ≤ d ∧ d < 2 ^ 63) :
    parseContainer (serializeContainer c) = .ok (c, []) := by
  obtain ⟨dg, rs, ds⟩ := c
  simp only at hd hrc hr hdc hds
  simp only [serializeContainer, parseContainer, parseBody, List.append_assoc]
  rw [Nat.mod_eq_of_lt hrc, Nat.mod_eq_of_lt hdc]
  have h32 := readBytesE_append dg
    (le32 rs.length ++ (serializeRecords rs ++ (le32 ds.length ++ serializeDeltas ds)))
  rw [hd] at h32
  have hds2 := parseDeltas_serialize ds [] hds
  rw [List.append_nil] at hds2
  simp only [h32, readU32E_le32 rs.length hrc,
    parseRecords_serialize rs (le32 ds.length ++ serializeDeltas ds) hr,
    readU32E_le32 ds.length hdc, hds2]

/-- C3 witness: a concrete container (digest of 32 sevens, one record `"~A"`, deltas
`[3, -4]`) survives the round trip. -/
theorem C3_witness :
    ((⟨List.replicate 32 7, [[126, 65]], [3, -4]⟩ : PatchContainer).digest.length = 32 ∧
      (⟨List.replicate 32 7, [[126, 65]], [3, -4]⟩ : PatchContainer).change_records.length < 2 ^ 32 ∧
      (∀ r ∈ (⟨List.replicate 32 7, [[126, 65]], [3, -4]⟩ : PatchContainer).change_records,
        r.length < 2 ^ 32 ∧ utf8Valid r = true) ∧
      (⟨List.replicate 32 7, [[126, 65]], [3, -4]⟩ : PatchContainer).offset_deltas.length < 2 ^ 32 ∧
      (∀ d ∈ (⟨List.replicate 32 7, [[126, 65]], [3, -4]⟩ : PatchContainer).offset_deltas,
        -(2 ^ 63) ≤ d ∧ d < 2 ^ 63)) ∧
    parseContainer (serializeContainer ⟨List.replicate 32 7, [[126, 65]], [3, -4]⟩) =
      .ok (⟨List.replicate 32 7, [[126, 65]], [3, -4]⟩, []) :=
  ⟨⟨by decide, by decide, by decide, by decide, by decide⟩,
    C3_roundtrip _ (by decide) (by decide) (by decide) (by decide) (by decide)⟩

theorem serializeRecords_replicate_nil (n : Nat) :
    serializeRecords (List.replicate n []) = List.replicate (4 * n) 0 := by
  induction n with
  | zero => rfl
  | succ n ih =>
    rw [List.replicate_succ]
    simp only [serializeRecords, ih, List.length_nil, Nat.zero_mod]
    rw [show le32 0 = List.replicate 4 0 from rfl]
    rw [show 4 * (n + 1) = 4 + 4 * n by ring, List.replicate_add]
    simp

theorem readBytesE_replicate_zero (k N : Nat) (h : k ≤ N) :
    readBytesE k (List.replicate N 0) = .ok (List.replicate k 0, List.replicate (N - k) 0) := by
  unfold readBytesE
  rw [if_pos (by simp; omega)]
  rw [List.take_replicate, List.drop_replicate]
  have hmin : min k N = k := by omega
  rw [hmin]

theorem readU32E_replicate_zero (N : Nat) (h : 4 ≤ N) :
    readU32E (List.replicate N 0) = .ok (0, List.replicate (N - 4) 0) := by
  unfold readU32E
  simp only [readBytesE_replicate_zero 4 N h]
  rfl

theorem parseContainer_replicate_zero (N : Nat) (h : 40 ≤ N) :
    parseContainer (List.replicate N 0) =
      .ok (⟨List.replicate 32 0, [], []⟩, List.replicate (N - 40) 0) := by
  unfold parseContainer parseBody
  simp only [readBytesE_replicate_zero 32 N (by omega),
    readU32E_replicate_zero (N - 32) (by omega),
    parseRecords,
    readU32E_replicate_zero (N - 32 - 4) (by omega),
    parseDeltas]
  rw [show N - 32 - 4 - 4 = N - 40 by omega]

/-- C3 counterexample: a container holding `2 ^ 32` (empty) change records does not
survive the round trip — `diff.len() as u32` truncates the record count to 0, so the
parser reads back no records at all. -/
theorem C3_counterexample :
    ((parseContainer (serializeContainer
          ⟨List.replicate 32 0, List.replicate (2 ^ 32) [], []⟩)).toOption.map
        (fun p => p.1.change_records)) = some [] ∧
    (⟨List.replicate 32 0, List.replicate (2 ^ 32) [], []⟩
        : PatchContainer).change_records ≠ [] := by
  constructor
  · have hser : serializeContainer ⟨List.replicate 32 0, List.replicate (2 ^ 32) [], []⟩ =
        List.replicate (2 ^ 34 + 40) 0 := by
      simp only [serializeContainer, serializeDeltas, serializeRecords_replicate_nil,
        List.length_replicate, Nat.mod_self, List.length_nil, Nat.zero_mod]
      rw [show le32 0 = List.replicate 4 0 from rfl]
      rw [show (2 : Nat) ^ 34 + 40 = 32 + (4 + (4 * 2 ^ 32 + 4)) by norm_num]
      rw [List.replicate_add, List.replicate_add, List.replicate_add]
      rw [List.append_nil]
      simp only [List.append_assoc]
    rw [hser, parseContainer_replicate_zero (2 ^ 34 + 40) (by norm_num)]
    rfl
  · intro hcontra
    have hlen : (List.replicate (2 ^ 32) ([] : List Nat)).length = 0 := by
      rw [show (List.replicate (2 ^ 32) ([] : List Nat)) = [] from hcontra]
      rfl
    rw [List.length_replicate] at hlen
    norm_num at hlen

/-! ## Patch-application lemmas -/

theorem parseContainer_inv (patch : List Nat) (c : PatchContainer) (rem : List Nat)
    (h : parseContainer patch = .ok (c, rem)) :
    readBytesE 32 patch = .ok (c.digest, patch.drop 32) ∧
    parseBody (patch.drop 32) = .ok ((c.change_records, c.offset_deltas), rem) := by
  unfold parseContainer at h
  split at h
  · simp at h
  next dg rest heq =>
    split at h
    · simp at h
    next recs ds s4 heq2 =>
      simp only [Except.ok.injEq, Prod.mk.injEq] at h
      obtain ⟨hc, hrem⟩ := h
      subst hrem
      subst hc
      have hparts : dg = patch.take 32 ∧ rest = patch.drop 32 := by
        unfold readBytesE at heq
        split at heq
        · simp only [Except.ok.injEq, Prod.mk.injEq] at heq
          exact ⟨heq.1.symm, heq.2.symm⟩
        · exact absurd heq (by simp)
      obtain ⟨h1, h2⟩ := hparts
      subst h1 h2
      exact ⟨heq, heq2⟩

theorem writeBytesAt_getElem?_outside (file : List Nat) (pos : Nat) (bytes : List Nat)
    (h : pos + bytes.length ≤ file.length) (p : Nat)
    (hp : p < pos ∨ pos + bytes.length ≤ p) :
    (writeBytesAt file pos bytes)[p]? = file[p]? := by
  have htl : (file.take pos).length = pos := by simp; omega
  unfold writeBytesAt
  rcases hp with hp | hp
  · rw [List.getElem?_append_left (show p < (file.take pos ++ bytes).length by simp; omega)]
    rw [List.getElem?_append_left (show p < (file.take pos).length by omega)]
    rw [List.getElem?_take, if_pos hp]
  · rw [List.getElem?_append_right (show (file.take pos ++ bytes).length ≤ p by simp; omega)]
    rw [List.getElem?_drop]
    congr 1
    simp only [List.length_append, htl]
    omega

theorem writeBytesAt_length (file : List Nat) (pos : Nat) (bytes : List Nat)
    (h : pos + bytes.length ≤ file.length) :
    (writeBytesAt file pos bytes).length = file.length := by
  simp [writeBytesAt]
  omega

theorem writeBytesAt_drop_after (file : List Nat) (pos : Nat) (bytes : List Nat) (q : Nat)
    (h : pos + bytes.length ≤ file.length) (hq : pos + bytes.length ≤ q) :
    (writeBytesAt file pos bytes).drop q = file.drop q := by
  apply List.ext_getElem?
  intro n
  rw [List.getElem?_drop, List.getElem?_drop]
  exact writeBytesAt_getElem?_outside file pos bytes h (q + n) (by omega)

theorem sliceAt_writeBytesAt_after (file : List Nat) (pos : Nat) (bytes : List Nat) (q : Nat)
    (h : pos + bytes.length ≤ file.length) (hq : pos + bytes.length ≤ q) :
    sliceAt (writeBytesAt file pos bytes) q = sliceAt file q := by
  unfold sliceAt
  rw [writeBytesAt_drop_after file pos bytes q h hq]

theorem sliceAt_writeBytesAt_self (file : List Nat) (pos : Nat) (bytes : List Nat)
    (hlen : bytes.length = 4) (h : pos + bytes.length ≤ file.length) :
    sliceAt (writeBytesAt file pos bytes) pos = bytes := by
  have htl : (file.take pos).length = pos := by simp; omega
  unfold sliceAt writeBytesAt
  rw [List.append_assoc]
  have h2 : (file.take pos ++ (bytes ++ file.drop (pos + bytes.length))).drop pos =
      (file.take pos ++ (bytes ++ file.drop (pos + bytes.length))).drop
        (file.take pos).length := by rw [htl]
  rw [h2, List.drop_left]
  rw [← hlen, List.take_left]

theorem sliceAt_congr (l1 l2 : List Nat) (q1 q2 : Nat)
    (h : ∀ t, t < 4 → l1[q1 + t]? = l2[q2 + t]?) :
    sliceAt l1 q1 = sliceAt l2 q2 := by
  apply List.ext_getElem?
  intro n
  unfold sliceAt
  rw [List.getElem?_take, List.getElem?_take]
  by_cases hn : n < 4
  · rw [if_pos hn, if_pos hn, List.getElem?_drop, List.getElem?_drop]
    exact h n hn
  · rw [if_neg hn, if_neg hn]

theorem applyDeltas_ok_spec (ds : List Int) : ∀ (file : List Nat) (i : Nat) (res : List Nat),
    applyDeltas file ds i = (.ok (), res) →
    res.length = file.length ∧
    (∀ p, (p < 4 * i ∨ 4 * (i + ds.length) ≤ p) → res[p]? = file[p]?) ∧
    (∀ j, ∀ hj : j < ds.length, sliceAt res (4 * (i + j)) =
      le32 ((leValue (sliceAt file (4 * (i + j)))
        + ((ds.get ⟨j, hj⟩).emod (2 ^ 32)).toNat) % 2 ^ 32)) := by
  induction ds with
  | nil =>
    intro file i res h
    simp only [applyDeltas, Prod.mk.injEq] at h
    rw [← h.2]
    exact ⟨rfl, fun p _ => rfl, fun j hj => absurd hj (by simp)⟩
  | cons d ds ih =>
    intro file i res h
    simp only [applyDeltas] at h
    by_cases hb : 4 * i + 4 ≤ file.length
    · rw [if_pos hb] at h
      obtain ⟨hlen, hout, hblocks⟩ := ih _ _ _ h
      have hle32len : (le32 ((leValue ((file.drop (4 * i)).take 4)
          + (d.emod (2 ^ 32)).toNat) % 2 ^ 32)).length = 4 := leBytes_length 4 _
      have hwlen : (writeBytesAt file (4 * i) (le32 ((leValue ((file.drop (4 * i)).take 4)
          + (d.emod (2 ^ 32)).toNat) % 2 ^ 32))).length = file.length :=
        writeBytesAt_length _ _ _ (by omega)
      refine ⟨by omega, ?_, ?_⟩
      · intro p hp
        have hp2 : p < 4 * (i + 1) ∨ 4 * ((i + 1) + ds.length) ≤ p := by
          rcases hp with hp | hp
          · left; omega
          · right; simp only [List.length_cons] at hp; omega
        rw [hout p hp2]
        apply writeBytesAt_getElem?_outside _ _ _ (by omega)
        rcases hp with hp | hp
        · left; omega
        · right; simp only [List.length_cons] at hp; omega
      · intro j hj
        cases j with
        | zero =>
          have hres : sliceAt res (4 * (i + 0)) =
              sliceAt (writeBytesAt file (4 * i) (le32 ((leValue ((file.drop (4 * i)).take 4)
                + (d.emod (2 ^ 32)).toNat) % 2 ^ 32))) (4 * i) := by
            apply sliceAt_congr
            intro t ht
            have := hout (4 * (i + 0) + t) (by left; omega)
            rw [this]
            simp only [Nat.add_zero]
          rw [hres, sliceAt_writeBytesAt_self _ _ _ hle32len (by omega)]
          rfl
        | succ j =>
          have hj2 : j < ds.length := by
            simp only [List.length_cons] at hj
            omega
          have hrec := hblocks j hj2
          have hidx : 4 * ((i + 1) + j) = 4 * (i + (j + 1)) := by ring
          rw [hidx] at hrec
          rw [hrec]
          rw [sliceAt_writeBytesAt_after _ _ _ _ (by omega) (by omega)]
          rfl
    · rw [if_neg hb] at h
      simp at h

/-! ## C2: the verification gate -/

/-- C2: if the stored digest of a parsed patch container differs from the SHA-256 digest
of the target's current content, `apply_streaming_patch` fails with the hash-mismatch
verification error and the target's bytes are all unchanged (the digest comparison
happens before the patch loop ever writes). -/
theorem C2_verification_gate (target patch : List Nat) (c : PatchContainer) (rem : List Nat)
    (hparse : parseContainer patch = .ok (c, rem))
    (hne : c.digest ≠ sha256Bytes target) :
    apply_streaming_patch target patch = (.error "File hash mismatch", target) := by
  obtain ⟨h32, _⟩ := parseContainer_inv patch c rem hparse
  unfold apply_streaming_patch
  simp only [h32]
  rw [if_neg hne]

/-- C2 witness: a patch whose stored digest is 32 zero bytes applied to the file
`[1, 2, 3]`, whose SHA-256 digest is not all zeros. -/
theorem C2_witness :
    parseContainer (List.replicate 32 0 ++ le32 0 ++ le32 0) =
      .ok (⟨List.replicate 32 0, [], []⟩, []) ∧
    (⟨List.replicate 32 0, [], []⟩ : PatchContainer).digest ≠ sha256Bytes [1, 2, 3] ∧
    apply_streaming_patch [1, 2, 3] (List.replicate 32 0 ++ le32 0 ++ le32 0) =
      (.error "File hash mismatch", [1, 2, 3]) :=
  ⟨by rfl, by decide,
    C2_verification_gate [1, 2, 3] (List.replicate 32 0 ++ le32 0 ++ le32 0)
      ⟨List.replicate 32 0, [], []⟩ [] (by rfl) (by decide)⟩

/-! ## C7 and C10: the patch loop -/

/-- C7: when `apply_streaming_patch` succeeds, then for every index `i` of the parsed
delta list, the four bytes at position `i * 4` of the result encode, little-endian, the
32-bit value read at `i * 4` of the original target plus the delta narrowed to 32 bits —
i.e. old value plus delta modulo `2 ^ 32` (two's-complement wrap-around, Rust release
semantics for the `+=`); all failures surface as error values of the embedding. -/
theorem C7_delta_arithmetic (target patch : List Nat) (c : PatchContainer) (rem : List Nat)
    (res : List Nat)
    (hparse : parseContainer patch = .ok (c, rem))
    (happly : apply_streaming_patch target patch = (.ok (), res)) :
    ∀ j, ∀ hj : j < c.offset_deltas.length,
      sliceAt res (4 * j) =
        le32 ((leValue (sliceAt target (4 * j))
          + ((c.offset_deltas.get ⟨j, hj⟩).emod (2 ^ 32)).toNat) % 2 ^ 32) := by
  obtain ⟨h32, hbody⟩ := parseContainer_inv patch c rem hparse
  unfold apply_streaming_patch at happly
  simp only [h32] at happly
  by_cases hh : c.digest = sha256Bytes target
  · rw [if_pos hh] at happly
    simp only [hbody] at happly
    obtain ⟨_, _, hblocks⟩ := applyDeltas_ok_spec c.offset_deltas target 0 res happly
    intro j hj
    have := hblocks j hj
    simpa using this
  · rw [if_neg hh] at happly
    simp at happly

/-- C10: when `apply_streaming_patch` succeeds with `M` parsed deltas, the result has the
target's length and every byte at position `≥ 4 * M` is unchanged — the loop writes only
within the first `4 * M` bytes. -/
theorem C10_frame (target patch : List Nat) (c : PatchContainer) (rem : List Nat)
    (res : List Nat)
    (hparse : parseContainer patch = .ok (c, rem))
    (happly : apply_streaming_patch target patch = (.ok (), res)) :
    res.length = target.length ∧
    ∀ p, 4 * c.offset_deltas.length ≤ p → res.getD p 0 = target.getD p 0 := by
  obtain ⟨h32, hbody⟩ := parseContainer_inv patch c rem hparse
  unfold apply_streaming_patch at happly
  simp only [h32] at happly
  by_cases hh : c.digest = sha256Bytes target
  · rw [if_pos hh] at happly
    simp only [hbody] at happly
    obtain ⟨hlen, hout, _⟩ := applyDeltas_ok_spec c.offset_deltas target 0 res happly
    refine ⟨hlen, fun p hp => ?_⟩
    rw [List.getD_eq_getElem?_getD, List.getD_eq_getElem?_getD]
    rw [hout p (by right; omega)]
  · rw [if_neg hh] at happly
    simp at happly

/-- C7 witness: an 8-byte target patched with deltas `[1, -2]` — the two 32-bit fields
become old value plus 1 and old value minus 2 (mod `2 ^ 32`). -/
theorem C7_witness :
    parseContainer (sha256Bytes [1, 2, 3, 4, 5, 6, 7, 8] ++ le32 0 ++ le32 2
        ++ le64i 1 ++ le64i (-2)) =
      .ok (⟨sha256Bytes [1, 2, 3, 4, 5, 6, 7, 8], [], [1, -2]⟩, []) ∧
    apply_streaming_patch [1, 2, 3, 4, 5, 6, 7, 8]
        (sha256Bytes [1, 2, 3, 4, 5, 6, 7, 8] ++ le32 0 ++ le32 2
          ++ le64i 1 ++ le64i (-2)) =
      (.ok (), [2, 2, 3, 4, 3, 6, 7, 8]) ∧
    sliceAt [2, 2, 3, 4, 3, 6, 7, 8] (4 * 1) =
      le32 ((leValue (sliceAt [1, 2, 3, 4, 5, 6, 7, 8] (4 * 1))
        + (((⟨sha256Bytes [1, 2, 3, 4, 5, 6, 7, 8], [], [1, -2]⟩
            : PatchContainer).offset_deltas.get ⟨1, by decide⟩).emod (2 ^ 32)).toNat)
        % 2 ^ 32) :=
  ⟨by rfl, by rfl,
    C7_delta_arithmetic [1, 2, 3, 4, 5, 6, 7, 8]
      (sha256Bytes [1, 2, 3, 4, 5, 6, 7, 8] ++ le32 0 ++ le32 2 ++ le64i 1 ++ le64i (-2))
      ⟨sha256Bytes [1, 2, 3, 4, 5, 6, 7, 8], [], [1, -2]⟩ [] [2, 2, 3, 4, 3, 6, 7, 8]
      (by rfl) (by rfl) 1 (by decide)⟩

/-- C10 witness: a 5-byte target with one delta — byte 4 (beyond `4 * 1`) is unchanged
and the length is preserved. -/
theorem C10_witness :
    parseContainer (sha256Bytes [9, 9, 9, 9, 5] ++ le32 0 ++ le32 1 ++ le64i 3) =
      .ok (⟨sha256Bytes [9, 9, 9, 9, 5], [], [3]⟩, []) ∧
    apply_streaming_patch [9, 9, 9, 9, 5]
        (sha256Bytes [9, 9, 9, 9, 5] ++ le32 0 ++ le32 1 ++ le64i 3) =
      (.ok (), [12, 9, 9, 9, 5]) ∧
    ([12, 9, 9, 9, 5] : List Nat).length = ([9, 9, 9, 9, 5] : List Nat).length ∧
    (4 * (⟨sha256Bytes [9, 9, 9, 9, 5], [], [3]⟩ : PatchContainer).offset_deltas.length ≤ 4 ∧
      ([12, 9, 9, 9, 5] : List Nat).getD 4 0 = ([9, 9, 9, 9, 5] : List Nat).getD 4 0) :=
  ⟨by rfl, by rfl,
    (C10_frame [9, 9, 9, 9, 5]
      (sha256Bytes [9, 9, 9, 9, 5] ++ le32 0 ++ le32 1 ++ le64i 3)
      ⟨sha256Bytes [9, 9, 9, 9, 5], [], [3]⟩ [] [12, 9, 9, 9, 5]
      (by rfl) (by rfl)).1,
    by decide,
    (C10_frame [9, 9, 9, 9, 5]
      (sha256Bytes [9, 9, 9, 9, 5] ++ le32 0 ++ le32 1 ++ le64i 3)
      ⟨sha256Bytes [9, 9, 9, 9, 5], [], [3]⟩ [] [12, 9, 9, 9, 5]
      (by rfl) (by rfl)).2 4 (by decide)⟩

/-! ## C8: normalization idempotence on pipeline output -/

theorem replaceAllFuel_nil (pat rep : List Char) (fuel : Nat) :
    replaceAllFuel pat rep fuel [] = [] := by
  cases fuel <;> rfl

theorem replaceAllFuel_congr (pat rep : List Char) :
    ∀ f1 f2 s, s.length ≤ f1 → s.length ≤ f2 →
      replaceAllFuel pat rep f1 s = replaceAllFuel pat rep f2 s := by
  intro f1
  induction f1 with
  | zero =>
    intro f2 s h1 _
    have hnil : s = [] := List.eq_nil_of_length_eq_zero (by omega)
    subst hnil
    rw [replaceAllFuel_nil, replaceAllFuel_nil]
  | succ g1 ih =>
    intro f2 s h1 h2
    cases s with
    | nil => rw [replaceAllFuel_nil, replaceAllFuel_nil]
    | cons c cs =>
      cases f2 with
      | zero => simp at h2
      | succ g2 =>
        simp only [replaceAllFuel]
        by_cases hc : pat ≠ [] ∧ pat.isPrefixOf (c :: cs)
        · rw [if_pos hc, if_pos hc]
          have hpl : 0 < pat.length := List.length_pos.mpr hc.1
          have hd : ((c :: cs).drop pat.length).length ≤ g1 := by
            simp only [List.length_drop, List.length_cons]
            simp only [List.length_cons] at h1
            omega
          have hd2 : ((c :: cs).drop pat.length).length ≤ g2 := by
            simp only [List.length_drop, List.length_cons]
            simp only [List.length_cons] at h2
            omega
          rw [ih g2 _ hd hd2]
        · rw [if_neg hc, if_neg hc]
          have hcs1 : cs.length ≤ g1 := by simp only [List.length_cons] at h1; omega
          have hcs2 : cs.length ≤ g2 := by simp only [List.length_cons] at h2; omega
          rw [ih g2 cs hcs1 hcs2]

theorem replaceAllChars_cons_neg (pat rep : List Char) (c : Char) (cs : List Char)
    (hn : ¬(pat ≠ [] ∧ pat.isPrefixOf (c :: cs))) :
    replaceAllChars pat rep (c :: cs) = c :: replaceAllChars pat rep cs := by
  unfold replaceAllChars
  simp only [List.length_cons, replaceAllFuel, if_neg hn]

theorem replaceAllChars_cons_pos (pat rep : List Char) (c : Char) (cs : List Char)
    (hne : pat ≠ []) (hpre : pat.isPrefixOf (c :: cs)) :
    replaceAllChars pat rep (c :: cs) =
      rep ++ replaceAllChars pat rep ((c :: cs).drop pat.length) := by
  unfold replaceAllChars
  simp only [List.length_cons, replaceAllFuel, if_pos (And.intro hne hpre)]
  congr 1
  apply replaceAllFuel_congr
  · have := List.length_pos.mpr hne
    simp only [List.length_drop, List.length_cons]
    omega
  · exact le_rfl

theorem replaceAllChars_eq_self (pat rep s : List Char)
    (h : ∀ n, ¬ pat.isPrefixOf (s.drop n)) :
    replaceAllChars pat rep s = s := by
  induction s with
  | nil => rfl
  | cons c cs ih =>
    rw [replaceAllChars_cons_neg]
    · rw [ih (fun n => by simpa using h (n + 1))]
    · intro hcon
      exact h 0 (by simpa using hcon.2)

theorem replaceAllChars_short_tail (pat rep pre ds : List Char)
    (hpat : ∃ t, pat = '0' :: t)
    (hpre : ∀ c ∈ pre, c ≠ '0')
    (hds : ds.length < pat.length) :
    replaceAllChars pat rep (pre ++ ds) = pre ++ ds := by
  apply replaceAllChars_eq_self
  intro m hcon
  obtain ⟨t, rfl⟩ := hpat
  rw [List.isPrefixOf_iff_prefix] at hcon
  by_cases hm : m < pre.length
  · have hhead : ((pre ++ ds).drop m).head? = some '0' := by
      obtain ⟨t2, ht2⟩ := hcon
      rw [← ht2]
      rfl
    rw [List.head?_drop] at hhead
    rw [List.getElem?_append_left hm] at hhead
    rw [List.getElem?_eq_getElem hm] at hhead
    have hmem : pre[m] = '0' := by
      simpa using hhead
    exact hpre pre[m] (List.getElem_mem hm) hmem
  · have hlen2 := hcon.length_le
    simp only [List.length_drop, List.length_append, List.length_cons] at hlen2 hds
    omega

theorem padZeros_length (w : Nat) (ds : List Char) :
    (padZeros w ds).length = (w - ds.length) + ds.length := by
  simp [padZeros]

theorem padZeros_of_le (w : Nat) (ds : List Char) (h : w ≤ ds.length) :
    padZeros w ds = ds := by
  unfold padZeros
  rw [show w - ds.length = 0 by omega]
  rfl

theorem padZeros_head (w : Nat) (ds : List Char) (h : ds.length < w) :
    ∃ t, padZeros w ds = '0' :: t := by
  unfold padZeros
  rw [show w - ds.length = (w - ds.length - 1) + 1 by omega, List.replicate_succ]
  exact ⟨List.replicate (w - ds.length - 1) '0' ++ ds, rfl⟩

theorem hexDigitChar_mem (d : Nat) (h : d < 16) : hexDigitChar d ∈ hexDigits := by
  interval_cases d <;> decide

theorem natHexAux_mem_hex :
    ∀ fuel n acc, (∀ c ∈ acc, c ∈ hexDigits) →
      ∀ c ∈ natHexAux fuel n acc, c ∈ hexDigits := by
  intro fuel
  induction fuel with
  | zero => intro n acc hacc c hc; exact hacc c hc
  | succ g ih =>
    intro n acc hacc c hc
    simp only [natHexAux] at hc
    by_cases hn : n = 0
    · rw [if_pos hn] at hc
      exact hacc c hc
    · rw [if_neg hn] at hc
      refine ih (n / 16) _ ?_ c hc
      intro c2 hc2
      rcases List.mem_cons.mp hc2 with h1 | h1
      · rw [h1]
        exact hexDigitChar_mem _ (Nat.mod_lt _ (by norm_num))
      · exact hacc c2 h1

theorem natHex_mem_hex (n : Nat) : ∀ c ∈ natHex n, c ∈ hexDigits := by
  unfold natHex
  by_cases hn : n = 0
  · rw [if_pos hn]; intro c hc; simp at hc; rw [hc]; decide
  · rw [if_neg hn]
    exact natHexAux_mem_hex n n [] (by simp)

theorem hex_char_props {c : Char} (h : c ∈ hexDigits) :
    c ≠ 'O' ∧ c ≠ 'P' ∧ c ≠ 'R' ∧ c ≠ 'N' := by
  fin_cases h <;> exact ⟨by decide, by decide, by decide, by decide⟩

theorem noMatchHead {pat : List Char} {c : Char} {rest : List Char} (h0 : Char) (t : List Char)
    (hp : pat = h0 :: t) (hne : h0 ≠ c) : ¬(pat ≠ [] ∧ pat.isPrefixOf (c :: rest)) := by
  subst hp
  rintro ⟨-, hpre⟩
  simp only [List.isPrefixOf, Bool.and_eq_true, beq_iff_eq] at hpre
  exact hne hpre.1

theorem noMatchSecond {pat : List Char} {c1 c2 : Char} {rest : List Char} (h0 h1 : Char)
    (t : List Char) (hp : pat = h0 :: h1 :: t) (hne : h1 ≠ c2) :
    ¬(pat ≠ [] ∧ pat.isPrefixOf (c1 :: c2 :: rest)) := by
  subst hp
  rintro ⟨-, hpre⟩
  simp only [List.isPrefixOf, Bool.and_eq_true, beq_iff_eq] at hpre
  exact hne hpre.2.1

theorem isPrefixOf_cons_self (l : List Char) (c : Char) :
    l.isPrefixOf (c :: l) = true ↔ l = List.replicate l.length c := by
  induction l generalizing c with
  | nil => simp [List.isPrefixOf]
  | cons a as ih =>
    simp only [List.isPrefixOf, Bool.and_eq_true, beq_iff_eq, List.length_cons,
      List.replicate_succ, List.cons.injEq]
    constructor
    · rintro ⟨hac, hpre⟩
      subst hac
      have has := (ih a).mp hpre
      exact ⟨rfl, by rw [has]; simp [List.length_replicate]⟩
    · rintro ⟨hac, has⟩
      subst hac
      constructor
      · rfl
      · exact (ih a).mpr (by rw [has]; simp [List.length_replicate])

theorem replaceAll_stable_short (hx : List Char) (hlen : hx.length ≤ 7) :
    replaceAllChars (padZeros 8 (natHex 0)) "SYMREF".data
        (replaceAllChars (padZeros 8 hx) "SYMREF".data ("OPERAND".data ++ padZeros 2 hx)) =
      replaceAllChars (padZeros 8 hx) "SYMREF".data ("OPERAND".data ++ padZeros 2 hx) := by
  have hfirst : replaceAllChars (padZeros 8 hx) "SYMREF".data
      ("OPERAND".data ++ padZeros 2 hx) = "OPERAND".data ++ padZeros 2 hx := by
    apply replaceAllChars_short_tail
    · exact padZeros_head 8 hx (by omega)
    · decide
    · rw [padZeros_length, padZeros_length]
      omega
  rw [hfirst]
  apply replaceAllChars_short_tail
  · exact ⟨"0000000".data, by decide⟩
  · decide
  · rw [padZeros_length]
    rw [show (padZeros 8 (natHex 0)).length = 8 from by decide]
    omega

theorem replaceAll_stable_long (hx : List Char) (hlen : 8 ≤ hx.length)
    (hH : ∀ c ∈ hx, c ∈ hexDigits) :
    replaceAllChars (padZeros 8 (natHex 0)) "SYMREF".data
        (replaceAllChars hx "SYMREF".data ("OPERAND".data ++ hx)) =
      replaceAllChars hx "SYMREF".data ("OPERAND".data ++ hx) := by
  cases hx with
  | nil => simp at hlen
  | cons h0 t1 =>
    cases t1 with
    | nil => simp at hlen
    | cons h1 rest =>
      have hH0 : h0 ∈ hexDigits := hH h0 (by simp)
      have hH1 : h1 ∈ hexDigits := hH h1 (by simp)
      obtain ⟨hO, hP, hR, hN⟩ := hex_char_props hH0
      obtain ⟨-, -, hR1, hN1⟩ := hex_char_props hH1
      have hOD : ("OPERAND".data ++ (h0 :: h1 :: rest)) =
          'O' :: 'P' :: 'E' :: 'R' :: 'A' :: 'N' :: 'D' :: (h0 :: h1 :: rest) := rfl
      by_cases hD : (h0 :: h1 :: rest) = List.replicate (h0 :: h1 :: rest).length 'D'
      · have hdrop : ('D' :: (h0 :: h1 :: rest)).drop (h0 :: h1 :: rest).length = ['D'] := by
          rw [hD]
          rw [show ('D' :: List.replicate (h0 :: h1 :: rest).length 'D') =
            List.replicate ((h0 :: h1 :: rest).length + 1) 'D' from rfl]
          rw [List.drop_replicate, List.length_replicate]
          rw [show (h0 :: h1 :: rest).length + 1 - (h0 :: h1 :: rest).length = 1 from by omega]
          rfl
        have hstep : replaceAllChars (h0 :: h1 :: rest) "SYMREF".data
            ("OPERAND".data ++ (h0 :: h1 :: rest)) = "OPERANSYMREFD".data := by
          rw [hOD]
          rw [replaceAllChars_cons_neg _ _ _ _ (noMatchHead h0 (h1 :: rest) rfl hO)]
          rw [replaceAllChars_cons_neg _ _ _ _ (noMatchHead h0 (h1 :: rest) rfl hP)]
          rw [replaceAllChars_cons_neg _ _ _ _ (noMatchSecond h0 h1 rest rfl hR1)]
          rw [replaceAllChars_cons_neg _ _ _ _ (noMatchHead h0 (h1 :: rest) rfl hR)]
          rw [replaceAllChars_cons_neg _ _ _ _ (noMatchSecond h0 h1 rest rfl hN1)]
          rw [replaceAllChars_cons_neg _ _ _ _ (noMatchHead h0 (h1 :: rest) rfl hN)]
          rw [replaceAllChars_cons_pos _ _ _ _ (by simp)
            ((isPrefixOf_cons_self _ 'D').mpr hD)]
          rw [hdrop]
          rw [replaceAllChars_cons_neg _ _ _ _ (by
            rintro ⟨-, hpre⟩
            rw [List.isPrefixOf_iff_prefix] at hpre
            have hle := hpre.length_le
            simp only [List.length_cons, List.length_nil] at hle
            omega)]
          rw [show replaceAllChars (h0 :: h1 :: rest) "SYMREF".data [] = [] from rfl]
          decide
        rw [hstep]
        decide
      · have hstep : replaceAllChars (h0 :: h1 :: rest) "SYMREF".data
            ("OPERAND".data ++ (h0 :: h1 :: rest)) = "OPERANDSYMREF".data := by
          rw [hOD]
          rw [replaceAllChars_cons_neg _ _ _ _ (noMatchHead h0 (h1 :: rest) rfl hO)]
          rw [replaceAllChars_cons_neg _ _ _ _ (noMatchHead h0 (h1 :: rest) rfl hP)]
          rw [replaceAllChars_cons_neg _ _ _ _ (noMatchSecond h0 h1 rest rfl hR1)]
          rw [replaceAllChars_cons_neg _ _ _ _ (noMatchHead h0 (h1 :: rest) rfl hR)]
          rw [replaceAllChars_cons_neg _ _ _ _ (noMatchSecond h0 h1 rest rfl hN1)]
          rw [replaceAllChars_cons_neg _ _ _ _ (noMatchHead h0 (h1 :: rest) rfl hN)]
          rw [replaceAllChars_cons_neg _ _ _ _ (by
            rintro ⟨-, hpre⟩
            exact hD ((isPrefixOf_cons_self _ 'D').mp hpre))]
          rw [replaceAllChars_cons_pos _ _ _ _ (by simp)
            ((@List.isPrefixOf_iff_prefix Char _ _ (h0 :: h1 :: rest)
              (h0 :: h1 :: rest)).mpr (List.prefix_refl _))]
          rw [List.drop_length]
          rw [show replaceAllChars (h0 :: h1 :: rest) "SYMREF".data [] = [] from rfl]
          decide
        rw [hstep]
        decide

theorem replaceAll_stable (n : Nat) :
    replaceAllChars (padZeros 8 (natHex 0)) "SYMREF".data
        (replaceAllChars (padZeros 8 (natHex n)) "SYMREF".data
          ("OPERAND".data ++ padZeros 2 (natHex n))) =
      replaceAllChars (padZeros 8 (natHex n)) "SYMREF".data
        ("OPERAND".data ++ padZeros 2 (natHex n)) := by
  by_cases hsmall : (natHex n).length ≤ 7
  · exact replaceAll_stable_short (natHex n) hsmall
  · rw [padZeros_of_le 8 (natHex n) (by omega), padZeros_of_le 2 (natHex n) (by omega)]
    exact replaceAll_stable_long (natHex n) (by omega) (natHex_mem_hex n)

theorem normUnit_idem_mkUnit (a : Int) :
    normUnit (normUnit (mkUnit a)) = normUnit (mkUnit a) :=
  congrArg (fun l => Instruction.mk ("OP" ++ String.mk (rustHexPad 2 a)) 0 (String.mk l))
    (replaceAll_stable ((a.emod (2 ^ 64)).toNat))

theorem disasmChunks_units (cs : List (List Nat)) (addr : Int) :
    ∀ u ∈ (disasmChunks cs addr).1, ∃ a, u = mkUnit a := by
  induction cs generalizing addr with
  | nil => intro u hu; simp [disasmChunks] at hu
  | cons c rest ih =>
    intro u hu
    simp only [disasmChunks, List.mem_cons] at hu
    rcases hu with hu | hu
    · exact ⟨addr, hu⟩
    · exact ih _ u hu

theorem streaming_disassemble_units (data : List Nat) :
    ∀ u ∈ streaming_disassemble data, ∃ a, u = mkUnit a := by
  rw [streaming_disassemble_eq]
  exact disasmChunks_units _ 0

/-- C8 counterexample: idempotence fails for arbitrary unit sequences.  A unit at offset 5
with payload `"00000000"` is untouched by the first normalization (its own offset pattern
`"00000005"` does not occur), but the zeroed offset of the second pass then matches the
payload and rewrites it to the placeholder. -/
theorem C8_counterexample :
    normalize (normalize [Instruction.new "L" 5 "00000000"]) ≠
      normalize [Instruction.new "L" 5 "00000000"] := by
  decide

/-- C8 (amended): `normalize` is idempotent on every unit sequence the pipeline actually
normalizes, i.e. on every output of `streaming_disassemble`: a synthetic payload
(`OPERAND` followed by the offset's hex digits) can never retain the 8-zero pattern of a
zeroed offset after the first normalization pass. -/
theorem C8_normalize_idempotent (data : List Nat) :
    normalize (normalize (streaming_disassemble data)) =
      normalize (streaming_disassemble data) := by
  unfold normalize
  rw [List.map_map]
  apply List.map_congr_left
  intro u hu
  obtain ⟨a, rfl⟩ := streaming_disassemble_units data u hu
  exact normUnit_idem_mkUnit a

end Oxidiff
